import Mathlib

/-!
Formal model of the choice-model engine in `choice_models.py` of the
FeedbackLoops4RecSys repository.

A recommendations batch is a list of `(user_id, item_id)` rows, row order
significant (it defines rank within each user's candidate list).  The
demographics table is a list of `(user_id, country)` rows together with its
column names (the column names matter because the source's
`prefilter_recommendations` builds its frozen-user set from
`list(DataFrame)`, which yields column names).  The tracks table keeps both
its positional rows and its index labels, because the source accesses it
with `.iloc` (positional).

Floating-point values of the source are modelled as real numbers; the
numpy literal `0.1` is modelled as `(1/10 : ℝ)`.  Random sampling
(`np.random.choice`, `DataFrame.sample`) is modelled by threading an
explicit sampler function: `pick draw n p` returns the index chosen on the
`draw`-th random draw among `n` options with probability vector `p`, and
`pickU draw n` the uniform analogue.  The models number their draws
sequentially, advancing the counter only when a draw actually happens,
exactly as the source consumes its global generator.
-/

/-- Python runtime values that can appear in a pandas membership test:
`isin` compares without coercion, so an integer is never equal to a
string. -/
inductive PVal where
  | int (n : ℤ) : PVal
  | str (s : String) : PVal
deriving DecidableEq, Repr

/-- Demographics table: column names plus `(user_id, country)` rows. -/
structure Demographics where
  cols : List String
  rows : List (ℕ × String)
deriving DecidableEq, Repr

/-- Tracks table: positional `country` column plus the index labels of the
rows (pandas row labels), needed to distinguish `.iloc` from keyed
lookup. -/
structure Tracks where
  index : List ℕ
  country : List String
deriving DecidableEq, Repr

/-- The candidate item list of one user, in row order: the `item_id`s of
the batch rows whose `user_id` equals `u` (`recommendations.loc[recommendations[..] == user_id]`). -/
def recsFor (recs : List (ℕ × ℕ)) (u : ℕ) : List ℕ :=
  (recs.filter (fun r => r.1 == u)).map Prod.snd

/-- Distinct values in first-occurrence order, as `pandas.Series.unique`
returns them. -/
def uniqueFirst : List ℕ → List ℕ
  | [] => []
  | a :: l => a :: uniqueFirst (l.filter (fun b => b != a))
termination_by l => l.length
decreasing_by simp_wf; exact Nat.lt_succ_of_le (List.length_filter_le _ _)

/-- Number of output rows carrying a given `user_id`. -/
def countUser (out : List (ℕ × ℕ)) (u : ℕ) : ℕ :=
  (out.filter (fun r => r.1 == u)).length

/-- The source `prefilter_recommendations` (lines 10–23).  `list(DataFrame)`
yields the column names, faithfully modelled here: the frozen-user set is
the list of the demographics column names, as strings; the `isin` test
compares them against integer `user_id`s.  Python truthiness of
`if control_country:` makes `None` and the empty string both skip the
filter. -/
def prefilter_recommendations (recs : List (ℕ × ℕ)) (demographics : Demographics)
    (tracks : Tracks) (control_country : Option String) : List (ℕ × ℕ) :=
  match control_country with
  | none => recs
  | some cc =>
    if cc = "" then recs
    else
      let frozen_users : List PVal := demographics.cols.map PVal.str
      recs.filter (fun r => ¬ (PVal.int (r.1 : ℤ) ∈ frozen_users))

/-- The user ids whose demographic country equals the given control
country: the frozen-user set the spec intends (§4.1, §9) for
`prefilter_recommendations`, used to compare the code against the claim. -/
def control_country_users (demographics : Demographics) (cc : String) : List ℕ :=
  (demographics.rows.filter (fun r => r.2 == cc)).map Prod.fst

/-- The source `ranked_prob` (lines 6–7): `np.exp(-alpha * p)` for a
1-based rank position `p`. -/
noncomputable def ranked_prob (p : ℕ) (alpha : ℝ) : ℝ :=
  Real.exp (-(alpha * p))

/-- The unnormalized rank-weight vector `[ranked_prob(i, alpha) for i in range(1, n+1)]`. -/
noncomputable def rankWeights (n : ℕ) (alpha : ℝ) : List ℝ :=
  (List.range n).map (fun i => ranked_prob (i + 1) alpha)

/-- Elementwise division by the list's sum: `p_list / np.sum(p_list)`. -/
noncomputable def normalizeProbs (l : List ℝ) : List ℝ :=
  l.map (fun x => x / l.sum)

/-- The maximum of a list of reals, `np.max`; returns 0 on the empty list,
which never occurs in the models (every iterated user has at least one
candidate row). -/
noncomputable def listMax : List ℝ → ℝ
  | [] => 0
  | a :: l => l.foldl max a

/-- Classification used by `country_centric` (line 71):
`tracks.iloc[item_id]['country'] == country`.  `.iloc` is positional, so
the row at position `item_id` is consulted, not the row labelled
`item_id`. -/
def fromCountry (tracks : Tracks) (it : ℕ) (c : String) : Bool :=
  tracks.country.getD it "" == c

/-- Keyed variant of the classification, following the spec's words
(§3, §4.5): the Track record whose `item_id` label equals the candidate's
`item_id` is consulted.  Used to compare the code's positional lookup with
the spec's keyed one. -/
def fromCountryKeyed (tracks : Tracks) (it : ℕ) (c : String) : Bool :=
  match (tracks.index.zip tracks.country).find? (fun p => p.1 == it) with
  | some p => p.2 == c
  | none => false

/-- The country modifier vector of `country_centric` (lines 75–79):
1 for the favored class, `non_country_chance` for the other; the favored
class is the target country normally and its complement when inverted. -/
def countryMods (tracks : Tracks) (c : String) (ncc : ℝ) (invert : Bool)
    (items : List ℕ) : List ℝ :=
  (items.map (fun it => fromCountry tracks it c)).map
    (fun x => if invert then (if x then ncc else 1) else (if x then 1 else ncc))

/-- The combined per-candidate weight vector of `country_centric`
(lines 74–81) for one user: rank weights times country modifiers.  The
`alpha` parameter is accepted by the source function but line 74 hardcodes
`0.1`, so it is unused here exactly as in the source. -/
noncomputable def countryWeights (recs : List (ℕ × ℕ)) (tracks : Tracks) (c : String)
    (ncc : ℝ) (invert : Bool) (alpha : ℝ) (u : ℕ) : List ℝ :=
  let items := recsFor recs u
  List.zipWith (· * ·) (rankWeights items.length (1/10)) (countryMods tracks c ncc invert items)

/-- The normalized per-user probability vector of the rank-based model
(lines 46–48). -/
noncomputable def rankProbs (recs : List (ℕ × ℕ)) (alpha : ℝ) (u : ℕ) : List ℝ :=
  normalizeProbs (rankWeights (recsFor recs u).length alpha)

/-- The normalized per-user probability vector of `country_centric`
(line 88). -/
noncomputable def countryProbs (recs : List (ℕ × ℕ)) (tracks : Tracks) (c : String)
    (ncc : ℝ) (invert : Bool) (alpha : ℝ) (u : ℕ) : List ℝ :=
  normalizeProbs (countryWeights recs tracks c ncc invert alpha u)

/-- The common per-user loop shape of the three choice models: for each
user in order, `step draw u` either emits an `(user, item)` row (advancing
the draw counter, since a random draw happened) or skips the user (the
counter stays, since the source `continue`s before sampling). -/
def perUser (step : ℕ → ℕ → Option ℕ) : List ℕ → ℕ → List (ℕ × ℕ)
  | [], _ => []
  | u :: us, c =>
    match step c u with
    | none => perUser step us c
    | some it => (u, it) :: perUser step us (c + 1)

/-- A sampler over probability vectors is valid when it always returns an
index below the number of options, as `np.random.choice(range(0, n), p=p)`
does. -/
def validPick (pick : ℕ → ℕ → List ℝ → ℕ) : Prop :=
  ∀ c n p, 0 < n → pick c n p < n

/-- A uniform sampler is valid when it always returns an index below the
number of options, as `DataFrame.sample(1)` picks an existing row. -/
def validPickU (pickU : ℕ → ℕ → ℕ) : Prop :=
  ∀ c n, 0 < n → pickU c n < n

/-- The source `choice_model_random` (lines 26–34): for each distinct user
in first-occurrence order, uniformly sample one of that user's candidate
rows and emit `(user_id, item_id)`. -/
def choice_model_random (pickU : ℕ → ℕ → ℕ) (recs : List (ℕ × ℕ)) : List (ℕ × ℕ) :=
  perUser
    (fun c u =>
      let items := recsFor recs u
      some (items.getD (pickU c items.length) 0))
    (uniqueFirst (recs.map Prod.fst)) 0

/-- The source `choice_model_rank_based` (lines 37–52): for each distinct
user, normalizeProbs the exponential rank weights and sample one candidate by
that distribution. -/
noncomputable def choice_model_rank_based (pick : ℕ → ℕ → List ℝ → ℕ)
    (recs : List (ℕ × ℕ)) (alpha : ℝ) : List (ℕ × ℕ) :=
  perUser
    (fun c u =>
      let items := recsFor recs u
      some (items.getD (pick c items.length (rankProbs recs alpha u)) 0))
    (uniqueFirst (recs.map Prod.fst)) 0

/-- The source `country_centric` (lines 55–93): rank weights times country
modifiers; if the maximum combined weight is 0 the user is skipped
(`continue`, line 85), otherwise normalizeProbs and sample. -/
noncomputable def country_centric (pick : ℕ → ℕ → List ℝ → ℕ) (recs : List (ℕ × ℕ))
    (tracks : Tracks) (c : String) (ncc : ℝ) (invert : Bool) (alpha : ℝ) :
    List (ℕ × ℕ) :=
  perUser
    (fun k u =>
      let items := recsFor recs u
      if listMax (countryWeights recs tracks c ncc invert alpha u) = 0 then none
      else some (items.getD (pick k items.length (countryProbs recs tracks c ncc invert alpha u)) 0))
    (uniqueFirst (recs.map Prod.fst)) 0

/-- Error raised by the dispatcher for an unknown model name
(`NotImplementedError`, the spec's `UnsupportedModel`). -/
inductive ChoiceError where
  | unsupportedModel (msg : String) : ChoiceError
deriving DecidableEq, Repr

/-- The source `accept_new_recommendations` (lines 96–113): dispatch on the
model name; `us_centric` and `non_us_centric` fix country `"US"` and
`non_country_chance = 0`; unknown names raise
`NotImplementedError('Unknown Choice model!')`.  The `demographics` and
`k` arguments are accepted but never read, as in the source. -/
noncomputable def accept_new_recommendations (pick : ℕ → ℕ → List ℝ → ℕ)
    (pickU : ℕ → ℕ → ℕ) (choice_model : String) (recs : List (ℕ × ℕ))
    (demographics : Demographics) (tracks : Tracks) (k : ℕ) :
    Except ChoiceError (List (ℕ × ℕ)) :=
  if choice_model = "random" then .ok (choice_model_random pickU recs)
  else if choice_model = "rank_based" then .ok (choice_model_rank_based pick recs (1/10))
  else if choice_model = "us_centric" then
    .ok (country_centric pick recs tracks "US" 0 false (1/10))
  else if choice_model = "non_us_centric" then
    .ok (country_centric pick recs tracks "US" 0 true (1/10))
  else .error (.unsupportedModel "Unknown Choice model!")

/-- Substring test on strings, used to state whether an error message
names the offending identifier. -/
def strContains (hay needle : String) : Bool :=
  hay.data.tails.any (fun t => needle.data.isPrefixOf t)

/-- Concrete deterministic sampler (always the first option): used to
instantiate the sampler-parametrized theorems at concrete inputs. -/
def pick0 : ℕ → ℕ → List ℝ → ℕ := fun _ _ _ => 0

/-- Concrete deterministic uniform sampler. -/
def pickU0 : ℕ → ℕ → ℕ := fun _ _ => 0

/-- Concrete one-row batch: user 1 was recommended item 5. -/
def recs0 : List (ℕ × ℕ) := [(1, 5)]

/-- Concrete demographics table: one user, user 1, from country US. -/
def demo0 : Demographics := ⟨["user_id", "country"], [(1, "US")]⟩

/-- Concrete tracks table with the default range index: track 0 is from
the US. -/
def tracks0 : Tracks := ⟨[0], ["US"]⟩

/-- Concrete one-row batch whose single candidate is item 0 (a US track in
`tracks0`). -/
def recsC2 : List (ℕ × ℕ) := [(1, 0)]

/-- Concrete tracks table whose index labels disagree with row positions:
position 0 is labelled 1 and is a US track, position 1 is labelled 0 and
is a French track. -/
def tracksBad : Tracks := ⟨[1, 0], ["US", "FR"]⟩

/-- Concrete tracks table with the default range index and two rows. -/
def tracksGood : Tracks := ⟨[0, 1], ["US", "FR"]⟩

/-- Concrete three-row batch: user 1 has candidates 10 and 11, user 2 has
candidate 12. -/
def recs1 : List (ℕ × ℕ) := [(1, 10), (1, 11), (2, 12)]

/-- Membership is preserved by first-occurrence deduplication. -/
theorem mem_uniqueFirst : ∀ {l : List ℕ} {a : ℕ}, a ∈ uniqueFirst l ↔ a ∈ l := by
  intro l
  induction l using uniqueFirst.induct with
  | case1 => intro a; simp [uniqueFirst]
  | case2 b l ih =>
    intro a
    rw [uniqueFirst]
    by_cases hab : a = b
    · simp [hab]
    · simp [List.mem_cons, ih, List.mem_filter, hab]

/-- First-occurrence deduplication yields a list without duplicates. -/
theorem nodup_uniqueFirst : ∀ l : List ℕ, (uniqueFirst l).Nodup := by
  intro l
  induction l using uniqueFirst.induct with
  | case1 => simp [uniqueFirst]
  | case2 b l ih =>
    rw [uniqueFirst, List.nodup_cons]
    refine ⟨?_, ih⟩
    intro hmem
    have := mem_uniqueFirst.mp hmem
    simp [List.mem_filter] at this

/-- A user appearing in the batch has a nonempty candidate list. -/
theorem recsFor_ne_nil {recs : List (ℕ × ℕ)} {u : ℕ}
    (h : u ∈ recs.map Prod.fst) : recsFor recs u ≠ [] := by
  simp only [List.mem_map] at h
  obtain ⟨r, hr, hru⟩ := h
  intro hnil
  have h1 : r ∈ recs.filter (fun s => s.1 == u) :=
    List.mem_filter.mpr ⟨hr, by simp [hru]⟩
  have h2 : r.2 ∈ recsFor recs u := List.mem_map.mpr ⟨r, h1, rfl⟩
  rw [hnil] at h2
  exact absurd h2 (List.not_mem_nil _)

/-- Counting rows of one user, cons form. -/
theorem countUser_cons (r : ℕ × ℕ) (out : List (ℕ × ℕ)) (u : ℕ) :
    countUser (r :: out) u
      = (if r.1 = u then countUser out u + 1 else countUser out u) := by
  by_cases h : r.1 = u <;> simp [countUser, List.filter_cons, h]

/-- Every emitted row's user comes from the iterated user list and its
item from the step that emitted it. -/
theorem perUser_mem {step : ℕ → ℕ → Option ℕ} : ∀ {us : List ℕ} {c : ℕ} {r : ℕ × ℕ},
    r ∈ perUser step us c → r.1 ∈ us ∧ ∃ k, step k r.1 = some r.2 := by
  intro us
  induction us with
  | nil => intro c r h; simp [perUser] at h
  | cons u us ih =>
    intro c r h
    rw [perUser] at h
    split at h
    · rcases ih h with ⟨h1, h2⟩
      exact ⟨List.mem_cons_of_mem _ h1, h2⟩
    · next it hs =>
      rcases List.mem_cons.mp h with rfl | h2
      · exact ⟨List.mem_cons_self _ _, c, hs⟩
      · rcases ih h2 with ⟨h1, h3⟩
        exact ⟨List.mem_cons_of_mem _ h1, h3⟩

/-- A user outside the iterated list gets no output row. -/
theorem perUser_count_notMem {step : ℕ → ℕ → Option ℕ} :
    ∀ {us : List ℕ} {c u : ℕ}, u ∉ us → countUser (perUser step us c) u = 0 := by
  intro us
  induction us with
  | nil => intro c u _; simp [perUser, countUser]
  | cons v us ih =>
    intro c u hu
    have hvu : v ≠ u := fun h => hu (h ▸ List.mem_cons_self _ _)
    have hus : u ∉ us := fun h => hu (List.mem_cons_of_mem _ h)
    rw [perUser]
    split
    · exact ih hus
    · rw [countUser_cons, if_neg hvu]
      exact ih hus

/-- With distinct iterated users, each user gets at most one output row. -/
theorem perUser_count_le_one {step : ℕ → ℕ → Option ℕ} :
    ∀ {us : List ℕ}, us.Nodup → ∀ {c u : ℕ}, countUser (perUser step us c) u ≤ 1 := by
  intro us
  induction us with
  | nil => intro _ c u; simp [perUser, countUser]
  | cons v us ih =>
    intro hnd c u
    rw [List.nodup_cons] at hnd
    rw [perUser]
    split
    · exact ih hnd.2
    · rw [countUser_cons]
      by_cases hvu : v = u
      · rw [if_pos hvu, perUser_count_notMem (hvu ▸ hnd.1)]
      · rw [if_neg hvu]
        exact ih hnd.2

/-- A user whose step always emits gets exactly one output row. -/
theorem perUser_count_emit {step : ℕ → ℕ → Option ℕ} :
    ∀ {us : List ℕ}, us.Nodup → ∀ {c u : ℕ}, u ∈ us → (∀ k, (step k u).isSome) →
      countUser (perUser step us c) u = 1 := by
  intro us
  induction us with
  | nil => intro _ c u h _; exact absurd h (List.not_mem_nil _)
  | cons v us ih =>
    intro hnd c u hu hs
    rw [List.nodup_cons] at hnd
    rw [perUser]
    split
    · next hnone =>
      rcases List.mem_cons.mp hu with rfl | h2
      · exact absurd (hs c) (by simp [hnone])
      · exact ih hnd.2 h2 hs
    · next it hsome =>
      rw [countUser_cons]
      by_cases hvu : v = u
      · rw [if_pos hvu, perUser_count_notMem (hvu ▸ hnd.1)]
      · rw [if_neg hvu]
        rcases List.mem_cons.mp hu with rfl | h2
        · exact absurd rfl hvu
        · exact ih hnd.2 h2 hs

/-- A user whose step never emits gets no output row. -/
theorem perUser_count_skip {step : ℕ → ℕ → Option ℕ} {u : ℕ}
    (hs : ∀ k, step k u = none) :
    ∀ {us : List ℕ} {c : ℕ}, countUser (perUser step us c) u = 0 := by
  intro us
  induction us with
  | nil => intro c; simp [perUser, countUser]
  | cons v us ih =>
    intro c
    rw [perUser]
    split
    · exact ih
    · next it hsome =>
      by_cases hvu : v = u
      · rw [hvu, hs c] at hsome
        cases hsome
      · rw [countUser_cons, if_neg hvu]
        exact ih

/-- Two loops with steps agreeing on the iterated users produce the same
output. -/
theorem perUser_congr {step1 step2 : ℕ → ℕ → Option ℕ} :
    ∀ {us : List ℕ}, (∀ k u, u ∈ us → step1 k u = step2 k u) →
      ∀ {c : ℕ}, perUser step1 us c = perUser step2 us c := by
  intro us
  induction us with
  | nil => intro _ c; rfl
  | cons v us ih =>
    intro h c
    have hrest : ∀ k u, u ∈ us → step1 k u = step2 k u :=
      fun k u hu => h k u (List.mem_cons_of_mem _ hu)
    rw [perUser, perUser, h c v (List.mem_cons_self _ _)]
    cases step2 c v with
    | none => exact ih hrest
    | some it => exact congrArg _ (ih hrest)

/-- Summing after dividing every element by a constant divides the sum. -/
theorem sum_map_div (l : List ℝ) (s : ℝ) :
    (l.map (fun x => x / s)).sum = l.sum / s := by
  induction l with
  | nil => simp
  | cons a l ih => simp [ih, add_div]

/-- Every element of an elementwise product comes from a pair of elements
of the factors. -/
theorem mem_zipWith_mul {l1 l2 : List ℝ} {x : ℝ}
    (h : x ∈ List.zipWith (· * ·) l1 l2) :
    ∃ a b, a ∈ l1 ∧ b ∈ l2 ∧ x = a * b := by
  induction l1 generalizing l2 with
  | nil => simp at h
  | cons a l ih =>
    cases l2 with
    | nil => simp at h
    | cons b l2 =>
      rw [List.zipWith_cons_cons] at h
      rcases List.mem_cons.mp h with rfl | h2
      · exact ⟨a, b, List.mem_cons_self _ _, List.mem_cons_self _ _, rfl⟩
      · rcases ih h2 with ⟨a2, b2, h3, h4, h5⟩
        exact ⟨a2, b2, List.mem_cons_of_mem _ h3, List.mem_cons_of_mem _ h4, h5⟩

/-- Multiplying elementwise by a matching list of ones changes nothing. -/
theorem zipWith_mul_replicate_one :
    ∀ {l : List ℝ} {n : ℕ}, l.length = n →
      List.zipWith (· * ·) l (List.replicate n (1 : ℝ)) = l := by
  intro l
  induction l with
  | nil => intro n _; simp
  | cons a l ih =>
    intro n h
    cases n with
    | zero => simp at h
    | succ m =>
      rw [List.replicate_succ, List.zipWith_cons_cons, mul_one,
        ih (by simpa using h)]

/-- The initial accumulator bounds a max fold from below. -/
theorem foldl_max_init_le (l : List ℝ) : ∀ a : ℝ, a ≤ l.foldl max a := by
  induction l with
  | nil => intro a; simp
  | cons b l ih =>
    intro a
    rw [List.foldl_cons]
    exact le_trans (le_max_left a b) (ih (max a b))

/-- Every list element bounds a max fold from below. -/
theorem le_foldl_max {l : List ℝ} {x : ℝ} (h : x ∈ l) :
    ∀ a : ℝ, x ≤ l.foldl max a := by
  induction l with
  | nil => exact absurd h (List.not_mem_nil _)
  | cons b l ih =>
    intro a
    rw [List.foldl_cons]
    rcases List.mem_cons.mp h with rfl | h2
    · exact le_trans (le_max_right a x) (foldl_max_init_le l (max a x))
    · exact ih h2 (max a b)

/-- `listMax` is an upper bound of the list. -/
theorem le_listMax {l : List ℝ} {x : ℝ} (h : x ∈ l) : x ≤ listMax l := by
  cases l with
  | nil => exact absurd h (List.not_mem_nil _)
  | cons a l =>
    rw [listMax]
    rcases List.mem_cons.mp h with rfl | h2
    · exact foldl_max_init_le l x
    · exact le_foldl_max h2 a

/-- On a nonempty list, `listMax` is attained by some element. -/
theorem listMax_mem : ∀ {l : List ℝ}, l ≠ [] → listMax l ∈ l := by
  have key : ∀ (l : List ℝ) (a : ℝ), l.foldl max a ∈ a :: l := by
    intro l
    induction l with
    | nil => intro a; simp
    | cons b l ih =>
      intro a
      rw [List.foldl_cons]
      rcases List.mem_cons.mp (ih (max a b)) with h | h
      · rcases max_choice a b with h2 | h2
        · rw [h, h2]; exact List.mem_cons_self _ _
        · rw [h, h2]; exact List.mem_cons_of_mem _ (List.mem_cons_self _ _)
      · exact List.mem_cons_of_mem _ (List.mem_cons_of_mem _ h)
  intro l h
  cases l with
  | nil => exact absurd rfl h
  | cons a l =>
    rw [listMax]
    exact key l a

/-- On a nonempty list of nonnegative reals, the maximum is zero exactly
when every element is zero: the source's `np.max(p_list) == 0` test is the
all-zero test. -/
theorem listMax_eq_zero_iff {l : List ℝ} (hne : l ≠ [])
    (hnn : ∀ x ∈ l, 0 ≤ x) : listMax l = 0 ↔ ∀ x ∈ l, x = 0 := by
  constructor
  · intro h x hx
    exact le_antisymm (h ▸ le_listMax hx) (hnn x hx)
  · intro h
    exact h _ (listMax_mem hne)

/-- The rank-weight vector has one entry per rank. -/
theorem rankWeights_length (n : ℕ) (alpha : ℝ) :
    (rankWeights n alpha).length = n := by
  simp [rankWeights]

/-- Exponential rank weights are strictly positive. -/
theorem rankWeights_pos {n : ℕ} {alpha : ℝ} {x : ℝ}
    (h : x ∈ rankWeights n alpha) : 0 < x := by
  simp only [rankWeights, List.mem_map] at h
  obtain ⟨i, _, rfl⟩ := h
  exact Real.exp_pos _

/-- A nonempty rank-weight vector. -/
theorem rankWeights_ne_nil {n : ℕ} {alpha : ℝ} (hn : 1 ≤ n) :
    rankWeights n alpha ≠ [] := by
  intro h0
  have h1 := rankWeights_length n alpha
  rw [h0] at h1
  simp at h1
  omega

/-- Every country modifier is 1 or `non_country_chance`. -/
theorem countryMods_mem {tracks : Tracks} {c : String} {ncc : ℝ} {invert : Bool}
    {items : List ℕ} {x : ℝ} (h : x ∈ countryMods tracks c ncc invert items) :
    x = 1 ∨ x = ncc := by
  simp only [countryMods, List.mem_map] at h
  obtain ⟨b, ⟨it, _, rfl⟩, rfl⟩ := h
  cases invert with
  | false => cases hb : fromCountry tracks it c <;> simp [hb]
  | true => cases hb : fromCountry tracks it c <;> simp [hb]

/-- One modifier per candidate. -/
theorem countryMods_length (tracks : Tracks) (c : String) (ncc : ℝ) (invert : Bool)
    (items : List ℕ) : (countryMods tracks c ncc invert items).length = items.length := by
  simp [countryMods]

/-- With `non_country_chance = 1` every modifier is 1, in both modes. -/
theorem countryMods_one (tracks : Tracks) (c : String) (invert : Bool)
    (items : List ℕ) :
    countryMods tracks c 1 invert items = List.replicate items.length 1 := by
  induction items with
  | nil => rfl
  | cons a l ih =>
    simp only [countryMods, List.map_cons] at ih ⊢
    rw [List.length_cons, List.replicate_succ]
    congr 1
    cases invert with
    | false => cases hb : fromCountry tracks a c <;> simp
    | true => cases hb : fromCountry tracks a c <;> simp

/-- With `non_country_chance = 1` the combined weights of `country_centric`
are exactly the rank weights it builds (with its hardcoded decay 0.1). -/
theorem countryWeights_one (recs : List (ℕ × ℕ)) (tracks : Tracks) (c : String)
    (invert : Bool) (alpha : ℝ) (u : ℕ) :
    countryWeights recs tracks c 1 invert alpha u
      = rankWeights (recsFor recs u).length (1/10) := by
  simp only [countryWeights]
  rw [countryMods_one]
  exact zipWith_mul_replicate_one (rankWeights_length _ _)

/-- The combined weight vector has one entry per candidate. -/
theorem countryWeights_length (recs : List (ℕ × ℕ)) (tracks : Tracks) (c : String)
    (ncc : ℝ) (invert : Bool) (alpha : ℝ) (u : ℕ) :
    (countryWeights recs tracks c ncc invert alpha u).length = (recsFor recs u).length := by
  simp [countryWeights, countryMods, rankWeights]

/-- A `getD` at an in-range index is a member of the list. -/
theorem getD_mem_of_lt {l : List ℕ} {i : ℕ} (h : i < l.length) :
    l.getD i 0 ∈ l := by
  rw [List.getD_eq_getElem _ _ h]
  exact List.getElem_mem h

/-- Keyed search in a zip of consecutive labels with rows finds exactly the
row at the matching offset. -/
theorem find_zip_range (l : List String) :
    ∀ (s it : ℕ), it < l.length →
      ((List.range' s l.length).zip l).find? (fun p => p.1 == s + it)
        = some (s + it, l.getD it "") := by
  induction l with
  | nil =>
    intro s it h
    simp at h
  | cons a l ih =>
    intro s it h
    rw [List.length_cons, List.range'_succ, List.zip_cons_cons]
    cases it with
    | zero =>
      rw [List.find?_cons_of_pos _ (by simp)]
      simp
    | succ it2 =>
      rw [List.find?_cons_of_neg _ (by simp)]
      have h2 : it2 < l.length := by
        rw [List.length_cons] at h
        omega
      rw [show s + (it2 + 1) = (s + 1) + it2 from by omega]
      rw [ih (s + 1) it2 h2, List.getD_cons_succ]

/-- C1: the claim says `prefilter_recommendations` removes every row whose
`user_id` belongs to the control country.  The code builds its frozen-user
set from `list(DataFrame)`, which yields the column names, so nothing is
ever removed: at this concrete input, user 1 has demographic country US,
the control country is US, yet the row (1, 5) survives unchanged. -/
theorem prefilter_filters_nothing :
    prefilter_recommendations recs0 demo0 tracks0 (some "US") = recs0
    ∧ 1 ∈ control_country_users demo0 "US"
    ∧ ((1, 5) : ℕ × ℕ) ∈ recs0 := by
  refine ⟨?_, by decide, by decide⟩
  decide

/-- C2: the claim says `country_centric` builds the rank weights with the
`alpha` it was given.  The code hardcodes 0.1 at line 74: with
`alpha = 1`, one user and one US candidate at rank 1, the combined weight
is `exp(-0.1) * 1`, which differs from the claimed `exp(-1) * 1`. -/
theorem country_centric_ignores_alpha :
    countryWeights recsC2 tracks0 "US" 0 false 1 1
      = [Real.exp (-(1/10 : ℝ)) * 1]
    ∧ Real.exp (-(1/10 : ℝ)) * 1 ≠ Real.exp (-(1 : ℝ)) * 1 := by
  constructor
  · have h1 : recsFor recsC2 1 = [0] := by decide
    have h2 : countryMods tracks0 "US" 0 false [0] = [1] := by
      simp [countryMods, fromCountry, tracks0]
    have h3 : rankWeights 1 (1/10) = [Real.exp (-(1/10 : ℝ))] := by
      simp only [rankWeights, show List.range 1 = [0] from rfl, List.map_cons,
        List.map_nil, ranked_prob]
      norm_num
    simp only [countryWeights, h1, List.length_cons, List.length_nil, h2, h3]
    simp [List.zipWith]
  · rw [mul_one, mul_one]
    intro h
    rw [Real.exp_eq_exp] at h
    norm_num at h

/-- C3 counterexample: the claim says classification is by the `item_id`
key.  With a tracks table whose labels disagree with positions, candidate
item 0 is classified from the row at position 0 (US, label 1), while the
record keyed 0 is French: the code's classification and the keyed one
disagree, refuting the claim. -/
theorem fromCountry_positional_counterexample :
    fromCountry tracksBad 0 "US" = true
    ∧ fromCountryKeyed tracksBad 0 "US" = false := by
  decide

/-- C3 amended: `country_centric` classifies a candidate from the Track at
row position `item_id` (`.iloc`); this coincides with the `item_id`-keyed
lookup exactly when the tracks index is the default range index (every
row's label equals its position). -/
theorem fromCountry_eq_keyed_of_range_index (tracks : Tracks) (it : ℕ) (c : String)
    (hidx : tracks.index = List.range tracks.country.length)
    (hit : it < tracks.country.length) :
    fromCountry tracks it c = fromCountryKeyed tracks it c := by
  unfold fromCountry fromCountryKeyed
  rw [hidx, List.range_eq_range']
  have h := find_zip_range tracks.country 0 it hit
  simp only [zero_add] at h
  rw [h]

/-- C3 witness: on a tracks table with the default range index the
positional and the keyed classification agree. -/
theorem fromCountry_eq_keyed_witness :
    fromCountry tracksGood 0 "US" = fromCountryKeyed tracksGood 0 "US" :=
  fromCountry_eq_keyed_of_range_index tracksGood 0 "US" (by decide) (by decide)

/-- C7: for at least one candidate and any nonnegative decay rate, the
rank-based model's normalized probability vector sums to exactly 1, and a
single candidate receives probability 1. -/
theorem rank_based_probs_sum_one (alpha : ℝ) (n : ℕ)
    (halpha : 0 ≤ alpha) (hn : 1 ≤ n) :
    (normalizeProbs (rankWeights n alpha)).sum = 1
    ∧ (n = 1 → normalizeProbs (rankWeights n alpha) = [1]) := by
  have hpos : 0 < (rankWeights n alpha).sum :=
    List.sum_pos _ (fun x hx => rankWeights_pos hx) (rankWeights_ne_nil hn)
  constructor
  · simp only [normalizeProbs]
    rw [sum_map_div, div_self (ne_of_gt hpos)]
  · intro h1
    subst h1
    simp only [normalizeProbs, rankWeights, show List.range 1 = [0] from rfl,
      List.map_cons, List.map_nil, List.sum_cons, List.sum_nil, add_zero, ranked_prob]
    rw [div_self (ne_of_gt (Real.exp_pos _))]

/-- C7 witness: at `n = 1`, `alpha = 0` the normalized vector sums to 1
and equals `[1]`. -/
theorem rank_based_probs_sum_one_witness :
    (normalizeProbs (rankWeights 1 0)).sum = 1
    ∧ ((1:ℕ) = 1 → normalizeProbs (rankWeights 1 0) = [1]) :=
  rank_based_probs_sum_one 0 1 (le_refl 0) (le_refl 1)

/-- C8: `ranked_prob p alpha` is `exp(-alpha*p)`; it is strictly
decreasing in the rank for positive decay, and constantly 1 for zero
decay. -/
theorem ranked_prob_spec :
    (∀ (p : ℕ) (alpha : ℝ), ranked_prob p alpha = Real.exp (-(alpha * p)))
    ∧ (∀ alpha : ℝ, 0 < alpha → ∀ p : ℕ, 1 ≤ p →
        ranked_prob (p + 1) alpha < ranked_prob p alpha)
    ∧ (∀ p : ℕ, ranked_prob p 0 = 1) := by
  refine ⟨fun p alpha => rfl, ?_, ?_⟩
  · intro alpha ha p _
    simp only [ranked_prob]
    rw [Real.exp_lt_exp]
    push_cast
    nlinarith
  · intro p
    simp [ranked_prob]

/-- C8 witness: rank 2 weighs strictly less than rank 1 at decay 1, and
rank 3 weighs 1 at decay 0. -/
theorem ranked_prob_spec_witness :
    ranked_prob (1 + 1) 1 < ranked_prob 1 1 ∧ ranked_prob 3 0 = 1 :=
  ⟨ranked_prob_spec.2.1 1 one_pos 1 (le_refl 1), ranked_prob_spec.2.2 3⟩

/-- C10: the dispatcher's result does not depend on the demographics
table or on `k`: with the same model name, batch, tracks and sampler
state, any two demographics tables and any two `k` values give identical
output. -/
theorem dispatcher_ignores_demographics_k (pick : ℕ → ℕ → List ℝ → ℕ)
    (pickU : ℕ → ℕ → ℕ) (m : String) (recs : List (ℕ × ℕ))
    (d1 d2 : Demographics) (tracks : Tracks) (k1 k2 : ℕ) :
    accept_new_recommendations pick pickU m recs d1 tracks k1
      = accept_new_recommendations pick pickU m recs d2 tracks k2 := rfl

/-- C4: in `country_centric`, a user all of whose combined weights are
zero is silently skipped (no output row), and any other user gets exactly
one row; in particular with `non_country_chance = 0`, non-inverted, a user
without any target-country candidate is absent from the output. -/
theorem country_centric_degenerate_policy (pick : ℕ → ℕ → List ℝ → ℕ)
    (recs : List (ℕ × ℕ)) (tracks : Tracks) (c : String) (ncc : ℝ)
    (invert : Bool) (alpha : ℝ) (hncc : 0 ≤ ncc) :
    ∀ u ∈ uniqueFirst (recs.map Prod.fst),
      ((∀ x ∈ countryWeights recs tracks c ncc invert alpha u, x = 0) →
        countUser (country_centric pick recs tracks c ncc invert alpha) u = 0)
      ∧ ((¬ ∀ x ∈ countryWeights recs tracks c ncc invert alpha u, x = 0) →
        countUser (country_centric pick recs tracks c ncc invert alpha) u = 1)
      ∧ (ncc = 0 → invert = false →
          (∀ it2 ∈ recsFor recs u, fromCountry tracks it2 c = false) →
          countUser (country_centric pick recs tracks c ncc invert alpha) u = 0) := by
  intro u hu
  have hne : recsFor recs u ≠ [] := recsFor_ne_nil (mem_uniqueFirst.mp hu)
  have hwne : countryWeights recs tracks c ncc invert alpha u ≠ [] := by
    intro h0
    have hl := countryWeights_length recs tracks c ncc invert alpha u
    rw [h0] at hl
    exact hne (List.length_eq_zero.mp hl.symm)
  have hnn : ∀ x ∈ countryWeights recs tracks c ncc invert alpha u, 0 ≤ x := by
    intro x hx
    simp only [countryWeights] at hx
    rcases mem_zipWith_mul hx with ⟨a, b, ha, hb, rfl⟩
    have h1 : 0 < a := rankWeights_pos ha
    rcases countryMods_mem hb with hb1 | hb1
    · rw [hb1, mul_one]; exact h1.le
    · rw [hb1]; exact mul_nonneg h1.le hncc
  have hiff := listMax_eq_zero_iff hwne hnn
  have hskip : (∀ x ∈ countryWeights recs tracks c ncc invert alpha u, x = 0) →
      countUser (country_centric pick recs tracks c ncc invert alpha) u = 0 := by
    intro hall
    have hmax : listMax (countryWeights recs tracks c ncc invert alpha u) = 0 :=
      hiff.mpr hall
    unfold country_centric
    apply perUser_count_skip
    intro k
    show (if listMax (countryWeights recs tracks c ncc invert alpha u) = 0 then none
        else some ((recsFor recs u).getD
          (pick k (recsFor recs u).length (countryProbs recs tracks c ncc invert alpha u)) 0))
      = none
    rw [if_pos hmax]
  refine ⟨hskip, ?_, ?_⟩
  · intro hnall
    have hmax : listMax (countryWeights recs tracks c ncc invert alpha u) ≠ 0 :=
      fun h => hnall (hiff.mp h)
    unfold country_centric
    apply perUser_count_emit (nodup_uniqueFirst _) hu
    intro k
    show (if listMax (countryWeights recs tracks c ncc invert alpha u) = 0 then none
        else some ((recsFor recs u).getD
          (pick k (recsFor recs u).length (countryProbs recs tracks c ncc invert alpha u)) 0)).isSome
      = true
    rw [if_neg hmax]
    rfl
  · intro h0 hinv hfc
    apply hskip
    intro x hx
    simp only [countryWeights] at hx
    rcases mem_zipWith_mul hx with ⟨a, b, ha, hb, rfl⟩
    have hb0 : b = 0 := by
      subst h0
      subst hinv
      simp only [countryMods, List.mem_map] at hb
      obtain ⟨x2, ⟨it2, hit2, rfl⟩, rfl⟩ := hb
      rw [hfc it2 hit2]
      simp
    rw [hb0, mul_zero]

/-- C4 witness: user 1's only candidate (item 5) is not a US track in
`tracks0`, so with `non_country_chance = 0` non-inverted all weights are
zero and the policy conclusions hold at this concrete input. -/
theorem country_centric_degenerate_policy_witness :
    ((∀ x ∈ countryWeights recs0 tracks0 "US" 0 false (1/10) 1, x = 0) →
      countUser (country_centric pick0 recs0 tracks0 "US" 0 false (1/10)) 1 = 0)
    ∧ ((¬ ∀ x ∈ countryWeights recs0 tracks0 "US" 0 false (1/10) 1, x = 0) →
      countUser (country_centric pick0 recs0 tracks0 "US" 0 false (1/10)) 1 = 1)
    ∧ ((0:ℝ) = 0 → false = false →
        (∀ it2 ∈ recsFor recs0 1, fromCountry tracks0 it2 "US" = false) →
        countUser (country_centric pick0 recs0 tracks0 "US" 0 false (1/10)) 1 = 0) :=
  country_centric_degenerate_policy pick0 recs0 tracks0 "US" 0 false (1/10)
    (le_refl 0) 1 (mem_uniqueFirst.mpr (by decide))

/-- C5 counterexample: the claim says the error message names the
offending identifier.  Dispatching on `"bogus"` raises the fixed message
`"Unknown Choice model!"`, which does not contain `"bogus"`. -/
theorem dispatcher_message_counterexample :
    accept_new_recommendations pick0 pickU0 "bogus" recs0 demo0 tracks0 10
      = Except.error (ChoiceError.unsupportedModel "Unknown Choice model!")
    ∧ strContains "Unknown Choice model!" "bogus" = false := by
  constructor
  · unfold accept_new_recommendations
    rw [if_neg (by decide), if_neg (by decide), if_neg (by decide), if_neg (by decide)]
  · decide

/-- C5 amended: any model name outside the four valid ones fails with the
`UnsupportedModel` error carrying the fixed message
`"Unknown Choice model!"` (which does not name the identifier) and no
partial result; each of the four valid names returns an acceptance
table. -/
theorem dispatcher_unknown_model (pick : ℕ → ℕ → List ℝ → ℕ) (pickU : ℕ → ℕ → ℕ)
    (recs : List (ℕ × ℕ)) (demographics : Demographics) (tracks : Tracks) (k : ℕ)
    (m : String) :
    (m ∉ (["random", "rank_based", "us_centric", "non_us_centric"] : List String) →
      accept_new_recommendations pick pickU m recs demographics tracks k
        = Except.error (ChoiceError.unsupportedModel "Unknown Choice model!"))
    ∧ (m ∈ (["random", "rank_based", "us_centric", "non_us_centric"] : List String) →
      ∃ out, accept_new_recommendations pick pickU m recs demographics tracks k
        = Except.ok out) := by
  constructor
  · intro hm
    have h1 : ¬ (m = "random") := fun h => hm (by rw [h]; decide)
    have h2 : ¬ (m = "rank_based") := fun h => hm (by rw [h]; decide)
    have h3 : ¬ (m = "us_centric") := fun h => hm (by rw [h]; decide)
    have h4 : ¬ (m = "non_us_centric") := fun h => hm (by rw [h]; decide)
    unfold accept_new_recommendations
    rw [if_neg h1, if_neg h2, if_neg h3, if_neg h4]
  · intro hm
    unfold accept_new_recommendations
    rcases List.mem_cons.mp hm with rfl | hm2
    · exact ⟨_, by rw [if_pos rfl]⟩
    rcases List.mem_cons.mp hm2 with rfl | hm3
    · exact ⟨_, by rw [if_neg (by decide), if_pos rfl]⟩
    rcases List.mem_cons.mp hm3 with rfl | hm4
    · exact ⟨_, by rw [if_neg (by decide), if_neg (by decide), if_pos rfl]⟩
    rcases List.mem_cons.mp hm4 with rfl | hm5
    · exact ⟨_, by rw [if_neg (by decide), if_neg (by decide), if_neg (by decide),
        if_pos rfl]⟩
    · exact absurd hm5 (List.not_mem_nil _)

/-- C5 witness: `"bogus"` raises the error, `"random"` returns a table. -/
theorem dispatcher_unknown_model_witness :
    accept_new_recommendations pick0 pickU0 "bogus" recs0 demo0 tracks0 10
      = Except.error (ChoiceError.unsupportedModel "Unknown Choice model!")
    ∧ ∃ out, accept_new_recommendations pick0 pickU0 "random" recs0 demo0 tracks0 10
        = Except.ok out :=
  ⟨(dispatcher_unknown_model pick0 pickU0 recs0 demo0 tracks0 10 "bogus").1 (by decide),
   (dispatcher_unknown_model pick0 pickU0 recs0 demo0 tracks0 10 "random").2 (by decide)⟩

/-- C6: with `non_country_chance = 1` every country modifier is 1, in
both inverted and non-inverted mode, so each user's probability vector in
`country_centric` equals the rank-based one (at the models' decay 0.1),
and with the same sampler the two models produce identical output. -/
theorem country_centric_ncc_one_eq_rank_based (pick : ℕ → ℕ → List ℝ → ℕ)
    (recs : List (ℕ × ℕ)) (tracks : Tracks) (c : String) (invert : Bool) (alpha : ℝ) :
    (∀ u, countryProbs recs tracks c 1 invert alpha u = rankProbs recs (1/10) u)
    ∧ country_centric pick recs tracks c 1 invert alpha
        = choice_model_rank_based pick recs (1/10) := by
  have hprob : ∀ u, countryProbs recs tracks c 1 invert alpha u
      = rankProbs recs (1/10) u := by
    intro u
    simp only [countryProbs, rankProbs, countryWeights_one]
  refine ⟨hprob, ?_⟩
  unfold country_centric choice_model_rank_based
  apply perUser_congr
  intro k u hu
  have hne : recsFor recs u ≠ [] := recsFor_ne_nil (mem_uniqueFirst.mp hu)
  have hlen : 0 < (recsFor recs u).length := List.length_pos.mpr hne
  have hmax : listMax (countryWeights recs tracks c 1 invert alpha u) ≠ 0 := by
    rw [countryWeights_one]
    exact ne_of_gt (rankWeights_pos (listMax_mem (rankWeights_ne_nil hlen)))
  show (if listMax (countryWeights recs tracks c 1 invert alpha u) = 0 then none
      else some ((recsFor recs u).getD
        (pick k (recsFor recs u).length (countryProbs recs tracks c 1 invert alpha u)) 0))
    = some ((recsFor recs u).getD
        (pick k (recsFor recs u).length (rankProbs recs (1/10) u)) 0)
  rw [if_neg hmax, hprob u]

/-- C9: for every model at most one row per user; for the random and the
rank-based model every batch user gets exactly one row; and every output
row's item is one of that user's own candidates. -/
theorem choice_models_output_invariants (pick : ℕ → ℕ → List ℝ → ℕ)
    (pickU : ℕ → ℕ → ℕ) (hp : validPick pick) (hpu : validPickU pickU)
    (recs : List (ℕ × ℕ)) (tracks : Tracks) (c : String) (ncc : ℝ)
    (invert : Bool) (alpha : ℝ) :
    (∀ u, countUser (choice_model_random pickU recs) u ≤ 1
       ∧ countUser (choice_model_rank_based pick recs alpha) u ≤ 1
       ∧ countUser (country_centric pick recs tracks c ncc invert alpha) u ≤ 1)
    ∧ (∀ u, u ∈ recs.map Prod.fst →
        countUser (choice_model_random pickU recs) u = 1
        ∧ countUser (choice_model_rank_based pick recs alpha) u = 1)
    ∧ (∀ r ∈ choice_model_random pickU recs, r.2 ∈ recsFor recs r.1)
    ∧ (∀ r ∈ choice_model_rank_based pick recs alpha, r.2 ∈ recsFor recs r.1)
    ∧ (∀ r ∈ country_centric pick recs tracks c ncc invert alpha,
        r.2 ∈ recsFor recs r.1) := by
  refine ⟨?_, ?_, ?_, ?_, ?_⟩
  · intro u
    refine ⟨?_, ?_, ?_⟩
    · unfold choice_model_random
      exact perUser_count_le_one (nodup_uniqueFirst _)
    · unfold choice_model_rank_based
      exact perUser_count_le_one (nodup_uniqueFirst _)
    · unfold country_centric
      exact perUser_count_le_one (nodup_uniqueFirst _)
  · intro u hu
    have hu2 : u ∈ uniqueFirst (recs.map Prod.fst) := mem_uniqueFirst.mpr hu
    constructor
    · unfold choice_model_random
      apply perUser_count_emit (nodup_uniqueFirst _) hu2
      intro k
      rfl
    · unfold choice_model_rank_based
      apply perUser_count_emit (nodup_uniqueFirst _) hu2
      intro k
      rfl
  · intro r hr
    unfold choice_model_random at hr
    rcases perUser_mem hr with ⟨h1, k, hstep⟩
    have hlen : 0 < (recsFor recs r.1).length :=
      List.length_pos.mpr (recsFor_ne_nil (mem_uniqueFirst.mp h1))
    have hstep2 : some ((recsFor recs r.1).getD
        (pickU k (recsFor recs r.1).length) 0) = some r.2 := hstep
    rw [← Option.some.inj hstep2]
    exact getD_mem_of_lt (hpu k _ hlen)
  · intro r hr
    unfold choice_model_rank_based at hr
    rcases perUser_mem hr with ⟨h1, k, hstep⟩
    have hlen : 0 < (recsFor recs r.1).length :=
      List.length_pos.mpr (recsFor_ne_nil (mem_uniqueFirst.mp h1))
    have hstep2 : some ((recsFor recs r.1).getD
        (pick k (recsFor recs r.1).length (rankProbs recs alpha r.1)) 0) = some r.2 := hstep
    rw [← Option.some.inj hstep2]
    exact getD_mem_of_lt (hp k _ _ hlen)
  · intro r hr
    unfold country_centric at hr
    rcases perUser_mem hr with ⟨h1, k, hstep⟩
    have hlen : 0 < (recsFor recs r.1).length :=
      List.length_pos.mpr (recsFor_ne_nil (mem_uniqueFirst.mp h1))
    have hstep2 : (if listMax (countryWeights recs tracks c ncc invert alpha r.1) = 0
        then none
        else some ((recsFor recs r.1).getD
          (pick k (recsFor recs r.1).length
            (countryProbs recs tracks c ncc invert alpha r.1)) 0)) = some r.2 := hstep
    by_cases hc : listMax (countryWeights recs tracks c ncc invert alpha r.1) = 0
    · rw [if_pos hc] at hstep2
      exact Option.noConfusion hstep2
    · rw [if_neg hc] at hstep2
      rw [← Option.some.inj hstep2]
      exact getD_mem_of_lt (hp k _ _ hlen)

/-- C9 witness: in the concrete batch `recs1`, user 1 gets exactly one
row from the random model and at most one from `country_centric`. -/
theorem choice_models_output_invariants_witness :
    countUser (choice_model_random pickU0 recs1) 1 = 1
    ∧ countUser (country_centric pick0 recs1 tracks0 "US" 0 false (1/10)) 1 ≤ 1 := by
  have h := choice_models_output_invariants pick0 pickU0
    (fun _ _ _ h2 => h2) (fun _ _ h2 => h2) recs1 tracks0 "US" 0 false (1/10)
  exact ⟨(h.2.1 1 (by decide)).1, (h.1 1).2.2⟩
